import Mathlib

/-!
Verification of the rotating batch-analysis engine of the
Flask-Margex-Prediction repository (source files `api_utils.py`, `web.py`,
`test.py`).

The Python code is shallowly embedded: each relevant Python function is
translated into an executable Lean definition.  Numeric code (prices,
probabilities, indicator values) is modelled over exact rationals `ℚ`;
Python dictionaries are modelled as association lists preserving insertion
order (matching CPython dict semantics); exceptions are modelled with
`Except Unit`; a `NaN` produced by `0/0` in pandas is modelled as `none` of
an `Option ℚ`.  External, unmodellable collaborators (the sklearn
`LogisticRegression` fit inside `fetch_kline`) are passed in as an abstract
scoring function `List Bar → Except Unit ℚ`, since no claim depends on the
numeric values the model produces, only on how its failures are handled.
-/

namespace Margex

/-- Direction tag of the indicator policy of `test.py` (`'롱'` / `'숏'`). -/
inductive Dir where
  | long
  | short
deriving DecidableEq, Repr

/-- The signal strings published by `api_utils.py` / `web.py`:
`'⚪ 분석중'` (analyzing placeholder), `'⚪ 응답 없음'` (no response),
`'⚪ 요청 실패'` (request failed), `'⚪ 데이터 부족'` (insufficient data),
`'⚪ 분석 실패'` (analysis failed, `web.py` only), and the graded
`🟢 Long / 🔴 Short / ⚪ 비추천` outcomes carrying a percentage. -/
inductive ApiSignal where
  | analyzing
  | noResponse
  | requestFailed
  | insufficientData
  | analysisFailed
  | long (pct : ℚ)
  | short (pct : ℚ)
  | noRecommendation (pct : ℚ)
deriving DecidableEq, Repr

/-- The result record of `test.py` (`{'signal': …, 'rate': …}`); a `none`
rate models the `NaN` produced when RSI is undefined. -/
structure TestSignal where
  dir : Dir
  rate : Option ℚ
deriving DecidableEq, Repr

/- ### Association lists: CPython `dict` semantics

A Python dict preserves insertion order; assignment to an existing key
keeps its position, assignment to a fresh key appends, `setdefault` only
appends when the key is absent. -/

/-- `m[k]` lookup returning `none` when absent (`dict.get`). -/
def getA {σ : Type} : List (String × σ) → String → Option σ
  | [], _ => none
  | (k, v) :: m, s => if k = s then some v else getA m s

/-- `m[k] = v`: replace in place when the key exists, append otherwise. -/
def setA {σ : Type} : List (String × σ) → String → σ → List (String × σ)
  | [], s, v => [(s, v)]
  | (k, w) :: m, s, v => if k = s then (k, v) :: m else (k, w) :: setA m s v

/-- `m.setdefault(k, v)`: append only when the key is absent. -/
def setdefaultA {σ : Type} (m : List (String × σ)) (s : String) (v : σ) :
    List (String × σ) :=
  if (getA m s).isSome then m else m ++ [(s, v)]

/-- The in-memory result cache of `api_utils.py` (`cache`), symbol → signal. -/
abbrev CacheMap := List (String × ApiSignal)

theorem getA_setA_self {σ : Type} (m : List (String × σ)) (s : String) (v : σ) :
    getA (setA m s v) s = some v := by
  induction m with
  | nil => simp [setA, getA]
  | cons p m ih =>
    obtain ⟨k, w⟩ := p
    by_cases h : k = s
    · simp [setA, getA, h]
    · simp [setA, getA, h, ih]

theorem getA_setA_ne {σ : Type} (m : List (String × σ)) (s k : String) (v : σ)
    (h : k ≠ s) : getA (setA m s v) k = getA m k := by
  induction m with
  | nil => simp [setA, getA, Ne.symm h]
  | cons p m ih =>
    obtain ⟨k', w⟩ := p
    by_cases h' : k' = s
    · subst h'
      simp [setA, getA, Ne.symm h]
    · simp [setA, getA, h', ih]

theorem keys_setA {σ : Type} (m : List (String × σ)) (s : String) (v : σ) :
    (setA m s v).map Prod.fst =
      if (getA m s).isSome then m.map Prod.fst else m.map Prod.fst ++ [s] := by
  induction m with
  | nil => simp [setA, getA]
  | cons p m ih =>
    obtain ⟨k, w⟩ := p
    by_cases h : k = s
    · simp [setA, getA, h]
    · by_cases h2 : (getA m s).isSome <;> simp [setA, getA, h, h2, ih]

theorem keys_setdefaultA {σ : Type} (m : List (String × σ)) (s : String) (v : σ) :
    (setdefaultA m s v).map Prod.fst =
      if (getA m s).isSome then m.map Prod.fst else m.map Prod.fst ++ [s] := by
  by_cases h : (getA m s).isSome <;> simp [setdefaultA, h]

theorem getA_isSome_iff_mem_keys {σ : Type} (m : List (String × σ)) (s : String) :
    (getA m s).isSome = true ↔ s ∈ m.map Prod.fst := by
  induction m with
  | nil => simp [getA]
  | cons p m ih =>
    obtain ⟨k, w⟩ := p
    by_cases h : k = s
    · simp [getA, h]
    · simpa [getA, h, Ne.symm h] using ih

/- ### Batch Scheduler (`api_utils.py::rotating_analysis`, identical batching
in `web.py::rotating_analysis`)

`for i in range(0, len(SYMBOLS), group_size): batch = SYMBOLS[i:i+group_size]`
partitions the universe into consecutive slices of at most `group_size`
symbols. -/

/-- Default `group_size` of `rotating_analysis` (batch size). -/
def defaultGroupSize : Nat := 30

/-- Default `interval` of `rotating_analysis` (inter-batch sleep, seconds). -/
def defaultInterval : Nat := 60

/-- Slicing loop: peel `B = b + 1` elements per step.  The `fuel` argument
makes the recursion structural; `batches` instantiates it with the list
length, which always suffices since every step consumes at least one
element. -/
def sliceLoop {α : Type} (b : Nat) : Nat → List α → List (List α)
  | _, [] => []
  | 0, _ :: _ => []
  | fuel + 1, x :: xs =>
    ((x :: xs).take (b + 1)) :: sliceLoop b fuel ((x :: xs).drop (b + 1))

/-- The successive slices `SYMBOLS[i:i+B]` for `i in range(0, N, B)`
(`range` with step `0` would raise in Python, so `B = 0` yields no
batches). -/
def batches {α : Type} (l : List α) (B : Nat) : List (List α) :=
  match B with
  | 0 => []
  | b + 1 => sliceLoop b l.length l

/-- What one iteration of the inner `for` loop of `rotating_analysis`
does after `asyncio.gather` returns: the gathered `(symbol, signal)` pairs,
the cache state written to `cache.json`, the ordered snapshot emitted over
the socket, and the `asyncio.sleep(interval)` it ends with. -/
structure BatchEffect where
  merged : List (String × ApiSignal)
  persisted : CacheMap
  published : List (String × Option ApiSignal)
  sleptSeconds : Nat
deriving Repr

/-- Run the inner loop of `rotating_analysis` over a list of batches:
for each batch, merge `results` into the cache (`cache[s] = r`), persist the
whole cache, publish `[(s, cache[s]) for s in SYMBOLS]`, sleep `interval`.
The per-symbol fetch+score is abstracted by `score` (deterministic within
one pass). -/
def runBatches (score : String → ApiSignal) (syms : List String) (interval : Nat) :
    CacheMap → List (List String) → CacheMap × List BatchEffect
  | c, [] => (c, [])
  | c, bt :: bts =>
    let c' := bt.foldl (fun m s => setA m s (score s)) c
    let e : BatchEffect :=
      ⟨bt.map (fun s => (s, score s)), c', syms.map (fun s => (s, getA c' s)), interval⟩
    let rest := runBatches score syms interval c' bts
    (rest.1, e :: rest.2)

/-- One full pass of `rotating_analysis` over the universe. -/
def onePass (score : String → ApiSignal) (syms : List String) (B interval : Nat)
    (c : CacheMap) : CacheMap × List BatchEffect :=
  runBatches score syms interval c (batches syms B)

/-- The `cache.setdefault(sym, '⚪ 분석중')` bootstrap loop that precedes the
batch loop in `api_utils.py::rotating_analysis`. -/
def bootstrapCache (c : CacheMap) (syms : List String) : CacheMap :=
  syms.foldl (fun m s => setdefaultA m s ApiSignal.analyzing) c

theorem sliceLoop_join {α : Type} (b : Nat) :
    ∀ (fuel : Nat) (l : List α), l.length ≤ fuel → (sliceLoop b fuel l).flatten = l := by
  intro fuel
  induction fuel with
  | zero =>
    intro l h
    rw [List.length_eq_zero.mp (Nat.le_zero.mp h)]
    rfl
  | succ fuel ih =>
    intro l h
    match l with
    | [] => rfl
    | x :: xs =>
      simp only [sliceLoop, List.flatten_cons]
      rw [ih ((x :: xs).drop (b + 1))
        (by simp only [List.length_drop, List.length_cons] at h ⊢; omega)]
      exact List.take_append_drop _ _

theorem sliceLoop_length {α : Type} (b : Nat) :
    ∀ (fuel : Nat) (l : List α), l.length ≤ fuel →
      (sliceLoop b fuel l).length = (l.length + b) / (b + 1) := by
  intro fuel
  induction fuel with
  | zero =>
    intro l h
    rw [List.length_eq_zero.mp (Nat.le_zero.mp h)]
    simp only [sliceLoop, List.length_nil, Nat.zero_add]
    exact (Nat.div_eq_of_lt (by omega)).symm
  | succ fuel ih =>
    intro l h
    match l with
    | [] =>
      simp only [sliceLoop, List.length_nil, Nat.zero_add]
      exact (Nat.div_eq_of_lt (by omega)).symm
    | x :: xs =>
      simp only [sliceLoop, List.length_cons]
      rw [ih ((x :: xs).drop (b + 1))
        (by simp only [List.length_drop, List.length_cons] at h ⊢; omega)]
      simp only [List.length_drop, List.length_cons]
      rcases Nat.le_total (b + 1) (xs.length + 1) with hb | hb
      · have h1 : xs.length + 1 - (b + 1) + b = xs.length := by omega
        have h2 : xs.length + 1 + b = xs.length + (b + 1) := by omega
        rw [h1, h2, Nat.add_div_right _ (Nat.succ_pos b)]
      · have h1 : xs.length + 1 - (b + 1) + b = b := by omega
        rw [h1]
        have h2 : b / (b + 1) = 0 := Nat.div_eq_of_lt (by omega)
        have h3 : (xs.length + 1 + b) / (b + 1) = 1 :=
          Nat.div_eq_of_lt_le (by omega) (by omega)
        omega

theorem sliceLoop_eq_nil_iff {α : Type} (b fuel : Nat) (l : List α)
    (h : l.length ≤ fuel) : sliceLoop b fuel l = [] ↔ l = [] := by
  match fuel, l with
  | _, [] => simp [sliceLoop]
  | 0, x :: xs => simp at h
  | fuel + 1, x :: xs => simp [sliceLoop]

theorem sliceLoop_dropLast {α : Type} (b : Nat) :
    ∀ (fuel : Nat) (l : List α), l.length ≤ fuel →
      ∀ bt ∈ (sliceLoop b fuel l).dropLast, bt.length = b + 1 := by
  intro fuel
  induction fuel with
  | zero =>
    intro l h
    rw [List.length_eq_zero.mp (Nat.le_zero.mp h)]
    simp [sliceLoop]
  | succ fuel ih =>
    intro l h
    match l with
    | [] => simp [sliceLoop]
    | x :: xs =>
      have hdrop : ((x :: xs).drop (b + 1)).length ≤ fuel := by
        simp only [List.length_drop, List.length_cons] at h ⊢; omega
      simp only [sliceLoop]
      by_cases hnil : (x :: xs).drop (b + 1) = []
      · rw [hnil]
        simp [sliceLoop]
      · have hne : sliceLoop b fuel ((x :: xs).drop (b + 1)) ≠ [] := by
          rw [ne_eq, sliceLoop_eq_nil_iff b fuel _ hdrop]
          exact hnil
        rw [List.dropLast_cons_of_ne_nil hne]
        intro bt hbt
        rcases List.mem_cons.mp hbt with hbt | hbt
        · subst hbt
          have hlen : b + 1 ≤ (x :: xs).length := by
            by_contra hlt
            exact hnil (List.drop_eq_nil_of_le (by omega))
          simp only [List.length_cons] at hlen
          simp only [List.length_take, List.length_cons]
          omega
        · exact ih _ hdrop bt hbt

theorem sliceLoop_getLast {α : Type} (b : Nat) :
    ∀ (fuel : Nat) (l : List α), l.length ≤ fuel → l ≠ [] →
      ((sliceLoop b fuel l).getLast?).map List.length
        = some (if l.length % (b + 1) = 0 then b + 1 else l.length % (b + 1)) := by
  intro fuel
  induction fuel with
  | zero =>
    intro l h hne
    exact absurd (List.length_eq_zero.mp (Nat.le_zero.mp h)) hne
  | succ fuel ih =>
    intro l h hne
    match l with
    | x :: xs =>
      have hdrop : ((x :: xs).drop (b + 1)).length ≤ fuel := by
        simp only [List.length_drop, List.length_cons] at h ⊢; omega
      simp only [sliceLoop]
      by_cases hnil : (x :: xs).drop (b + 1) = []
      · have hlen : xs.length + 1 ≤ b + 1 := by
          have := List.drop_eq_nil_iff.mp hnil
          simpa using this
        rw [hnil]
        simp only [sliceLoop, List.getLast?_singleton, Option.map_some', List.length_take,
          List.length_cons]
        by_cases heq : xs.length + 1 = b + 1
        · rw [heq]
          simp [Nat.mod_self]
        · have hlt : xs.length + 1 < b + 1 := by omega
          rw [Nat.mod_eq_of_lt hlt]
          have : min (b + 1) (xs.length + 1) = xs.length + 1 := by omega
          simp only [this]
          have hz : ¬ xs.length + 1 = 0 := by omega
          simp [hz]
      · have hne2 : sliceLoop b fuel ((x :: xs).drop (b + 1)) ≠ [] := by
          rw [ne_eq, sliceLoop_eq_nil_iff b fuel _ hdrop]
          exact hnil
        obtain ⟨r, rs, hrr⟩ := List.exists_cons_of_ne_nil hne2
        rw [hrr, List.getLast?_cons_cons, ← hrr, ih _ hdrop hnil]
        have hgt : b + 1 ≤ xs.length + 1 := by
          by_contra hlt
          exact hnil (List.drop_eq_nil_of_le (by simp; omega))
        have hmod : (x :: xs).length % (b + 1) = ((x :: xs).drop (b + 1)).length % (b + 1) := by
          simp only [List.length_drop, List.length_cons]
          rw [Nat.mod_eq_sub_mod (by omega)]
        rw [hmod]

theorem batches_join {α : Type} (l : List α) (B : Nat) (hB : 0 < B) :
    (batches l B).flatten = l := by
  obtain ⟨b, rfl⟩ : ∃ b, B = b + 1 := ⟨B - 1, by omega⟩
  exact sliceLoop_join b l.length l le_rfl

theorem batches_length {α : Type} (l : List α) (B : Nat) (hB : 0 < B) :
    (batches l B).length = (l.length + B - 1) / B := by
  obtain ⟨b, rfl⟩ : ∃ b, B = b + 1 := ⟨B - 1, by omega⟩
  have : l.length + (b + 1) - 1 = l.length + b := by omega
  rw [this]
  exact sliceLoop_length b l.length l le_rfl

theorem batches_dropLast {α : Type} (l : List α) (B : Nat) (hB : 0 < B) :
    ∀ bt ∈ (batches l B).dropLast, bt.length = B := by
  obtain ⟨b, rfl⟩ : ∃ b, B = b + 1 := ⟨B - 1, by omega⟩
  exact sliceLoop_dropLast b l.length l le_rfl

theorem batches_getLast {α : Type} (l : List α) (B : Nat) (hB : 0 < B) (hl : l ≠ []) :
    ((batches l B).getLast?).map List.length
      = some (if l.length % B = 0 then B else l.length % B) := by
  obtain ⟨b, rfl⟩ : ∃ b, B = b + 1 := ⟨B - 1, by omega⟩
  exact sliceLoop_getLast b l.length l le_rfl hl

theorem runBatches_snd_length (score : String → ApiSignal) (syms : List String)
    (interval : Nat) : ∀ (bts : List (List String)) (c : CacheMap),
    ((runBatches score syms interval c bts).2).length = bts.length := by
  intro bts
  induction bts with
  | nil => intro c; rfl
  | cons bt bts ih => intro c; simp [runBatches, ih]

theorem runBatches_merged (score : String → ApiSignal) (syms : List String)
    (interval : Nat) : ∀ (bts : List (List String)) (c : CacheMap),
    ((runBatches score syms interval c bts).2).map BatchEffect.merged
      = bts.map (fun bt => bt.map (fun s => (s, score s))) := by
  intro bts
  induction bts with
  | nil => intro c; rfl
  | cons bt bts ih => intro c; simp [runBatches, ih]

theorem runBatches_effects (score : String → ApiSignal) (syms : List String)
    (interval : Nat) : ∀ (bts : List (List String)) (c : CacheMap),
    ∀ e ∈ (runBatches score syms interval c bts).2,
      e.published = syms.map (fun s => (s, getA e.persisted s))
        ∧ e.published.map Prod.fst = syms
        ∧ e.sleptSeconds = interval := by
  intro bts
  induction bts with
  | nil => intro c e he; simp [runBatches] at he
  | cons bt bts ih =>
    intro c e he
    simp only [runBatches, List.mem_cons] at he
    rcases he with he | he
    · subst he
      refine ⟨rfl, ?_, rfl⟩
      simp [Function.comp_def]
    · exact ih _ e he

theorem runBatches_fst (score : String → ApiSignal) (syms : List String)
    (interval : Nat) : ∀ (bts : List (List String)) (c : CacheMap),
    (runBatches score syms interval c bts).1
      = bts.flatten.foldl (fun m s => setA m s (score s)) c := by
  intro bts
  induction bts with
  | nil => intro c; rfl
  | cons bt bts ih =>
    intro c
    simp only [runBatches, List.flatten_cons, List.foldl_append]
    exact ih _

theorem getA_foldl_setA_not_mem (f : String → ApiSignal) (s : String) :
    ∀ (l : List String) (c : CacheMap), s ∉ l →
      getA (l.foldl (fun m x => setA m x (f x)) c) s = getA c s := by
  intro l
  induction l with
  | nil => intro c _; rfl
  | cons x xs ih =>
    intro c h
    simp only [List.mem_cons, not_or] at h
    simp only [List.foldl_cons]
    rw [ih _ h.2, getA_setA_ne _ _ _ _ h.1]

theorem getA_foldl_setA_mem (f : String → ApiSignal) (s : String) :
    ∀ (l : List String) (c : CacheMap), s ∈ l →
      getA (l.foldl (fun m x => setA m x (f x)) c) s = some (f s) := by
  intro l
  induction l with
  | nil => intro c h; simp at h
  | cons x xs ih =>
    intro c h
    simp only [List.foldl_cons]
    by_cases hx : s ∈ xs
    · exact ih _ hx
    · have hsx : s = x := by
        rcases List.mem_cons.mp h with h1 | h1
        · exact h1
        · exact absurd h1 hx
      subst hsx
      rw [getA_foldl_setA_not_mem f s xs _ hx, getA_setA_self]

/-- A universe of `n` distinct placeholder symbols, used only to witness
theorems at concrete inputs. -/
def demoSyms (n : Nat) : List String := (List.range n).map toString

/-- **C1.**  One pass of `rotating_analysis(group_size=B, interval)` over a
universe of `N` symbols processes it as `⌈N/B⌉ = (N+B-1)/B` consecutive
in-order slices (all of size `B` except the last, of size `N % B` when
nonzero); each batch contributes exactly one merge of its
`(symbol, signal)` pairs into the cache, one persist of the full cache, one
publish of the full cache snapshot in universe order, and one
`sleep(interval)`; for `N = 45`, `B = 30` a pass is exactly 2 batches, so
the merge/persist/publish step runs exactly twice. -/
theorem scheduler_one_pass_spec (score : String → ApiSignal) (syms : List String)
    (B interval : Nat) (c : CacheMap) (hB : 0 < B) :
    ((batches syms B).flatten = syms
      ∧ (batches syms B).length = (syms.length + B - 1) / B
      ∧ (∀ bt ∈ (batches syms B).dropLast, bt.length = B)
      ∧ (syms ≠ [] →
          ((batches syms B).getLast?).map List.length
            = some (if syms.length % B = 0 then B else syms.length % B)))
    ∧ ((onePass score syms B interval c).2.length = (batches syms B).length
      ∧ (onePass score syms B interval c).2.map BatchEffect.merged
          = (batches syms B).map (fun bt => bt.map (fun s => (s, score s)))
      ∧ (∀ e ∈ (onePass score syms B interval c).2,
          e.published = syms.map (fun s => (s, getA e.persisted s))
          ∧ e.published.map Prod.fst = syms
          ∧ e.sleptSeconds = interval)
      ∧ (onePass score syms B interval c).1
          = syms.foldl (fun m s => setA m s (score s)) c)
    ∧ (syms.length = 45 → B = 30 →
        (batches syms B).length = 2 ∧ (onePass score syms B interval c).2.length = 2) := by
  have hjoin := batches_join syms B hB
  have hlen := batches_length syms B hB
  refine ⟨⟨hjoin, hlen, batches_dropLast syms B hB, batches_getLast syms B hB⟩,
    ⟨runBatches_snd_length score syms interval _ c,
      runBatches_merged score syms interval _ c,
      runBatches_effects score syms interval _ c, ?_⟩, ?_⟩
  · rw [onePass, runBatches_fst, hjoin]
  · intro h45 h30
    subst h30
    rw [hlen, h45]
    constructor
    · rfl
    · rw [onePass, runBatches_snd_length, hlen, h45]

/-- Witness for C1 at a concrete input: a 45-symbol universe with batch
size 30 yields exactly 2 batches and 2 merge/persist/publish steps. -/
theorem scheduler_one_pass_spec_witness :
    0 < 30 ∧ ((batches (demoSyms 45) 30).length = 2
      ∧ (onePass (fun _ => ApiSignal.analyzing) (demoSyms 45) 30 60 []).2.length = 2) :=
  ⟨by decide,
    (scheduler_one_pass_spec (fun _ => ApiSignal.analyzing) (demoSyms 45) 30 60 []
      (by decide)).2.2 (by simp [demoSyms]) rfl⟩

theorem getA_append {σ : Type} (m l : List (String × σ)) (s : String) :
    getA (m ++ l) s = (getA m s).or (getA l s) := by
  induction m with
  | nil => simp [getA]
  | cons p m ih =>
    obtain ⟨k, w⟩ := p
    by_cases h : k = s <;> simp [getA, h, ih]

theorem getA_setdefaultA_some {σ : Type} (m : List (String × σ)) (k s : String)
    (v w : σ) (h : getA m s = some w) : getA (setdefaultA m k v) s = some w := by
  by_cases hk : (getA m k).isSome
  · simp [setdefaultA, hk, h]
  · simp [setdefaultA, hk, getA_append, h]

theorem getA_setdefaultA_none_self {σ : Type} (m : List (String × σ)) (s : String)
    (v : σ) (h : getA m s = none) : getA (setdefaultA m s v) s = some v := by
  simp only [setdefaultA, h, Option.isSome_none, Bool.false_eq_true, if_false]
  simp [getA_append, h, getA]

theorem getA_setdefaultA_ne {σ : Type} (m : List (String × σ)) (k s : String)
    (v : σ) (h : k ≠ s) : getA (setdefaultA m k v) s = getA m s := by
  by_cases hk : (getA m k).isSome
  · simp [setdefaultA, hk]
  · simp only [setdefaultA, hk, Bool.false_eq_true, if_false, getA_append, getA, h,
      if_false]
    cases getA m s <;> simp

theorem bootstrap_preserves_some :
    ∀ (syms : List String) (c : CacheMap) (s : String) (w : ApiSignal),
      getA c s = some w → getA (bootstrapCache c syms) s = some w := by
  intro syms
  induction syms with
  | nil => intro c s w h; exact h
  | cons x xs ih =>
    intro c s w h
    exact ih _ s w (getA_setdefaultA_some c x s _ w h)

theorem bootstrap_isSome_of_mem :
    ∀ (syms : List String) (c : CacheMap) (s : String), s ∈ syms →
      (getA (bootstrapCache c syms) s).isSome = true := by
  intro syms
  induction syms with
  | nil => intro c s h; simp at h
  | cons x xs ih =>
    intro c s h
    by_cases hs : s ∈ xs
    · exact ih _ s hs
    · have hsx : s = x := by
        rcases List.mem_cons.mp h with h1 | h1
        · exact h1
        · exact absurd h1 hs
      subst hsx
      have hsome : ∃ w, getA (setdefaultA c s ApiSignal.analyzing) s = some w := by
        cases hc : getA c s with
        | none => exact ⟨_, getA_setdefaultA_none_self c s _ hc⟩
        | some w => exact ⟨w, getA_setdefaultA_some c s s _ w hc⟩
      obtain ⟨w, hw⟩ := hsome
      rw [bootstrapCache, List.foldl_cons]
      rw [show ∀ m, List.foldl (fun m s => setdefaultA m s ApiSignal.analyzing) m xs
            = bootstrapCache m xs from fun _ => rfl]
      rw [bootstrap_preserves_some xs _ s w hw]
      rfl

theorem bootstrap_placeholder :
    ∀ (syms : List String) (c : CacheMap) (s : String), s ∈ syms → getA c s = none →
      getA (bootstrapCache c syms) s = some ApiSignal.analyzing := by
  intro syms
  induction syms with
  | nil => intro c s h; simp at h
  | cons x xs ih =>
    intro c s h hc
    by_cases hsx : s = x
    · subst hsx
      have hw : getA (setdefaultA c s ApiSignal.analyzing) s = some ApiSignal.analyzing :=
        getA_setdefaultA_none_self c s _ hc
      rw [bootstrapCache, List.foldl_cons]
      exact bootstrap_preserves_some xs _ s _ hw
    · have hs : s ∈ xs := by
        rcases List.mem_cons.mp h with h1 | h1
        · exact absurd h1 hsx
        · exact h1
      rw [bootstrapCache, List.foldl_cons]
      refine ih _ s hs ?_
      rw [getA_setdefaultA_ne c x s _ (fun h' => hsx h'.symm)]
      exact hc

theorem mem_keys_setdefaultA {σ : Type} (m : List (String × σ)) (x k : String) (v : σ) :
    k ∈ (setdefaultA m x v).map Prod.fst ↔ k ∈ m.map Prod.fst ∨ k = x := by
  rw [keys_setdefaultA]
  by_cases h : (getA m x).isSome
  · simp only [h, if_true]
    constructor
    · exact Or.inl
    · rintro (hk | rfl)
      · exact hk
      · exact (getA_isSome_iff_mem_keys m k).mp h
  · simp [h, List.mem_append]

theorem mem_keys_bootstrap :
    ∀ (syms : List String) (c : CacheMap) (k : String),
      k ∈ (bootstrapCache c syms).map Prod.fst
        ↔ (k ∈ c.map Prod.fst ∨ k ∈ syms) := by
  intro syms
  induction syms with
  | nil => intro c k; simp [bootstrapCache]
  | cons x xs ih =>
    intro c k
    rw [bootstrapCache, List.foldl_cons]
    rw [show List.foldl (fun m s => setdefaultA m s ApiSignal.analyzing)
          (setdefaultA c x ApiSignal.analyzing) xs
          = bootstrapCache (setdefaultA c x ApiSignal.analyzing) xs from rfl]
    rw [ih, mem_keys_setdefaultA]
    simp only [List.mem_cons]
    tauto

theorem nodup_keys_setdefaultA {σ : Type} (m : List (String × σ)) (x : String) (v : σ)
    (h : (m.map Prod.fst).Nodup) : ((setdefaultA m x v).map Prod.fst).Nodup := by
  rw [keys_setdefaultA]
  by_cases hx : (getA m x).isSome
  · simpa [hx] using h
  · have hxm : x ∉ m.map Prod.fst := fun hm =>
      hx ((getA_isSome_iff_mem_keys m x).mpr hm)
    simp [hx, List.nodup_append, h, hxm]

theorem nodup_keys_bootstrap :
    ∀ (syms : List String) (c : CacheMap), (c.map Prod.fst).Nodup →
      ((bootstrapCache c syms).map Prod.fst).Nodup := by
  intro syms
  induction syms with
  | nil => intro c h; exact h
  | cons x xs ih =>
    intro c h
    exact ih _ (nodup_keys_setdefaultA c x _ h)

theorem mem_keys_setA {σ : Type} (m : List (String × σ)) (x k : String) (v : σ) :
    k ∈ (setA m x v).map Prod.fst ↔ k ∈ m.map Prod.fst ∨ k = x := by
  rw [keys_setA]
  by_cases h : (getA m x).isSome
  · simp only [h, if_true]
    constructor
    · exact Or.inl
    · rintro (hk | rfl)
      · exact hk
      · exact (getA_isSome_iff_mem_keys m k).mp h
  · simp [h, List.mem_append]

theorem nodup_keys_setA {σ : Type} (m : List (String × σ)) (x : String) (v : σ)
    (h : (m.map Prod.fst).Nodup) : ((setA m x v).map Prod.fst).Nodup := by
  rw [keys_setA]
  by_cases hx : (getA m x).isSome
  · simpa [hx] using h
  · have hxm : x ∉ m.map Prod.fst := fun hm =>
      hx ((getA_isSome_iff_mem_keys m x).mpr hm)
    simp [hx, List.nodup_append, h, hxm]

theorem nodup_keys_foldl_setA (f : String → ApiSignal) :
    ∀ (l : List String) (c : CacheMap), (c.map Prod.fst).Nodup →
      ((l.foldl (fun m s => setA m s (f s)) c).map Prod.fst).Nodup := by
  intro l
  induction l with
  | nil => intro c h; exact h
  | cons x xs ih =>
    intro c h
    exact ih _ (nodup_keys_setA c x _ h)

/-- **C4 (amended).** After `rotating_analysis` starts (the `setdefault`
bootstrap), every symbol of the universe has exactly one live cache entry —
the `'⚪ 분석중'` placeholder before its first result and the latest signal
after a pass — and entries are never duplicated; but the cache does NOT
cover exactly the current universe: entries pre-loaded from the persisted
`cache.json` snapshot for symbols outside the universe are retained, the
bootstrap only adds entries and never prunes (key set = persisted keys ∪
universe). -/
theorem result_cache_entries (c0 : CacheMap) (syms : List String)
    (score : String → ApiSignal) (B interval : Nat) (hB : 0 < B)
    (hnd : (c0.map Prod.fst).Nodup) :
    (∀ s ∈ syms, (getA (bootstrapCache c0 syms) s).isSome = true)
    ∧ (∀ s ∈ syms, getA c0 s = none →
        getA (bootstrapCache c0 syms) s = some ApiSignal.analyzing)
    ∧ (∀ s ∈ syms,
        getA (onePass score syms B interval (bootstrapCache c0 syms)).1 s
          = some (score s))
    ∧ (∀ k, k ∈ (bootstrapCache c0 syms).map Prod.fst
        ↔ (k ∈ c0.map Prod.fst ∨ k ∈ syms))
    ∧ ((bootstrapCache c0 syms).map Prod.fst).Nodup
    ∧ ((onePass score syms B interval (bootstrapCache c0 syms)).1.map Prod.fst).Nodup := by
  refine ⟨fun s hs => bootstrap_isSome_of_mem syms c0 s hs,
    fun s hs hnone => bootstrap_placeholder syms c0 s hs hnone, ?_,
    fun k => mem_keys_bootstrap syms c0 k,
    nodup_keys_bootstrap syms c0 hnd, ?_⟩
  · intro s hs
    rw [onePass, runBatches_fst, batches_join syms B hB]
    exact getA_foldl_setA_mem score s syms _ hs
  · rw [onePass, runBatches_fst, batches_join syms B hB]
    exact nodup_keys_foldl_setA score syms _ (nodup_keys_bootstrap syms c0 hnd)

/-- Witness for the amended C4 at a concrete input. -/
theorem result_cache_entries_witness :
    (0 < 30 ∧ (([("OLD_USDT", ApiSignal.requestFailed)] : CacheMap).map Prod.fst).Nodup)
    ∧ (∀ s ∈ ["BTC_USDT"],
        (getA (bootstrapCache [("OLD_USDT", ApiSignal.requestFailed)] ["BTC_USDT"])
          s).isSome = true) :=
  ⟨⟨by decide, by decide⟩,
    (result_cache_entries [("OLD_USDT", ApiSignal.requestFailed)] ["BTC_USDT"]
      (fun _ => ApiSignal.long 90) 30 60 (by decide) (by decide)).1⟩

/-- **C4 counterexample.** A persisted `cache.json` snapshot containing
`OLD_USDT` while the freshly loaded universe is `["BTC_USDT"]`: after the
bootstrap the cache still holds an entry for `OLD_USDT`, a symbol outside
the current universe, so the cache does not cover exactly the universe. -/
theorem result_cache_stale_entry :
    "OLD_USDT" ∈ (bootstrapCache [("OLD_USDT", ApiSignal.requestFailed)]
        ["BTC_USDT"]).map Prod.fst
    ∧ "OLD_USDT" ∉ ["BTC_USDT"] := by
  decide

/- ### Symbol Fetcher: payload decoding (`fetch_kline` in `api_utils.py` and
`web.py`, `get_klines` in `test.py`) -/

/-- One field of a provider k-line row: a numeric JSON value, or a value on
which Python's `int()` / `float()` conversion raises (a schema-violating,
non-numeric field). -/
inductive JsonNum where
  | num (q : ℚ)
  | nonNumeric
deriving DecidableEq, Repr

/-- One row of the `data` array of the k-line endpoint. -/
abbrev Row := List JsonNum

/-- `float(x)` / `int(x)`: succeeds only on a numeric field. -/
def parseNum : JsonNum → Option ℚ
  | .num q => some q
  | .nonNumeric => none

/-- Python `int()`: truncation toward zero. -/
def pyInt (q : ℚ) : ℤ := if q < 0 then -(⌊-q⌋) else ⌊q⌋

/-- One decoded OHLCV bar (`timestamp` already divided down to seconds). -/
structure Bar where
  timestamp : ℤ
  openP : ℚ
  high : ℚ
  low : ℚ
  close : ℚ
  volume : ℚ
deriving DecidableEq, Repr

/-- Decoding one k-line row, positions fixed:
`int(k[0])//1000, float(k[1]), float(k[2]), float(k[3]), float(k[4]),
float(k[5])`.  Returns `none` (the Python code raises `IndexError` /
`ValueError`) when the row has fewer than 6 fields or a non-numeric field
among the first six. -/
def parseRow (k : Row) : Option Bar :=
  match (k[0]?).bind parseNum, (k[1]?).bind parseNum, (k[2]?).bind parseNum,
      (k[3]?).bind parseNum, (k[4]?).bind parseNum, (k[5]?).bind parseNum with
  | some t, some o, some h, some l, some c, some v =>
    some ⟨Int.fdiv (pyInt t) 1000, o, h, l, c, v⟩
  | _, _, _, _, _, _ => none

/-- Decoding the whole `data` array into a DataFrame: the comprehension
raises — and the surrounding `try` catches — as soon as any row fails. -/
def parseRows : List Row → Option (List Bar)
  | [] => some []
  | r :: rs =>
    match parseRow r, parseRows rs with
    | some b, some bs => some (b :: bs)
    | _, _ => none

/-- The result of the HTTP GET + `.json()` step of a per-symbol fetch:
either an exception (transport error, timeout, JSON decode failure), or a
JSON object whose `data` key holds the rows (`none` when the key is
absent). -/
inductive FetchOutcome where
  | transportError
  | payload (rows : Option (List Row))
deriving DecidableEq, Repr

/- ### ContractMeta (`/contract/detail` items) and the risk-adjusted
threshold classifier of `api_utils.py` -/

/-- One entry of `riskLimitCustom`; the code reads the rates with
`.get('mmr', 0)` / `.get('imr', 0)`, so each field may be absent. -/
structure RiskTier where
  mmr : Option ℚ
  imr : Option ℚ
deriving DecidableEq, Repr

/-- One item of the contract-detail response, with the fields the code
reads.  `quoteCoin` is read with `.get`, the margin-rate fields with
`.get(…, 0)`. -/
structure DetailItem where
  symbol : String
  quoteCoin : Option String
  riskLimitCustom : List RiskTier
  maintenanceMarginRate : Option ℚ
  initialMarginRate : Option ℚ
deriving DecidableEq, Repr

/-- `mmr` / `imr` extraction of `api_utils.py::fetch_kline`: from
`riskLimitCustom[0]` when the list is nonempty, else from the top-level
margin-rate fields, all defaulting to 0; a symbol absent from `detail_map`
yields `{}` and hence rates `(0, 0)`. -/
def riskRates (detail : Option DetailItem) : ℚ × ℚ :=
  match detail with
  | none => (0, 0)
  | some d =>
    match d.riskLimitCustom with
    | t :: _ => (t.mmr.getD 0, t.imr.getD 0)
    | [] => (d.maintenanceMarginRate.getD 0, d.initialMarginRate.getD 0)

/-- The signal mapping of `api_utils.py::fetch_kline`:
`adjusted = prob * (1 - (mmr + imr))`, then `Long` above 0.85, `Short`
below 0.15, `비추천` (no recommendation) otherwise, the confidence printed
as a percentage. -/
def classifyAdjusted (detail : Option DetailItem) (prob : ℚ) : ApiSignal :=
  let mmr := (riskRates detail).1
  let imr := (riskRates detail).2
  let adjusted := prob * (1 - (mmr + imr))
  if 85/100 < adjusted then .long (adjusted * 100)
  else if adjusted < 15/100 then .short ((1 - adjusted) * 100)
  else .noRecommendation (adjusted * 100)

/-- The signal mapping of `web.py::fetch_kline`: same thresholds applied to
the raw probability, no risk adjustment. -/
def classifyProb (prob : ℚ) : ApiSignal :=
  if 85/100 < prob then .long (prob * 100)
  else if prob < 15/100 then .short ((1 - prob) * 100)
  else .noRecommendation (prob * 100)

/-- `api_utils.py::fetch_kline`.  The indicator computation and the
`LogisticRegression` fit (lines 104–117) are abstracted by `score`; note
that in this variant they run OUTSIDE any `try`, so a scoring failure is
an uncaught exception (`Except.error`). -/
def fetch_kline_api (score : List Bar → Except Unit ℚ) (detail : Option DetailItem) :
    FetchOutcome → Except Unit ApiSignal
  | .transportError => .ok .requestFailed
  | .payload d =>
    let rows := d.getD []
    if rows.isEmpty then .ok .noResponse
    else
      match parseRows rows with
      | none => .ok .requestFailed
      | some bars =>
        if bars.length < 25 then .ok .insufficientData
        else
          match score bars with
          | .error e => .error e
          | .ok prob => .ok (classifyAdjusted detail prob)

/-- `web.py::fetch_kline`.  Differences from `api_utils.py`: the
no-response check tests `'data' not in data` (an empty `data` list is NOT
caught there and falls through to the 25-bar check), and the whole
indicator/model section sits in a second `try` whose handler returns
`'⚪ 분석 실패'`. -/
def fetch_kline_web (score : List Bar → Except Unit ℚ) :
    FetchOutcome → Except Unit ApiSignal
  | .transportError => .ok .requestFailed
  | .payload none => .ok .noResponse
  | .payload (some rows) =>
    match parseRows rows with
    | none => .ok .requestFailed
    | some bars =>
      if bars.length < 25 then .ok .insufficientData
      else
        match score bars with
        | .error _ => .ok .analysisFailed
        | .ok prob => .ok (classifyProb prob)

/- ### Indicator Library (`test.py::compute_rsi`, `compute_macd_diff`),
over exact rationals -/

/-- `ewm(alpha=a, adjust=False).mean()` continued from current average `y`:
`y_t = (1-a)·y_{t-1} + a·x_t`. -/
def ewmFrom (a y : ℚ) : List ℚ → List ℚ
  | [] => []
  | x :: xs =>
    ((1 - a) * y + a * x) :: ewmFrom a ((1 - a) * y + a * x) xs

/-- pandas `ewm(alpha=a, adjust=False).mean()`: seeded at the first
element, then the recurrence of `ewmFrom`. -/
def ewmSeq (a : ℚ) : List ℚ → List ℚ
  | [] => []
  | x :: xs => x :: ewmFrom a x xs

/-- `series.diff()` without its leading `NaN`: consecutive differences. -/
def diffs : List ℚ → List ℚ
  | x :: y :: rest => (y - x) :: diffs (y :: rest)
  | _ => []

/-- `delta.clip(lower=0)` applied to the differences. -/
def gainsOf (closes : List ℚ) : List ℚ := (diffs closes).map (fun d => max d 0)

/-- `-delta.clip(upper=0)` applied to the differences. -/
def lossesOf (closes : List ℚ) : List ℚ := (diffs closes).map (fun d => max (-d) 0)

/-- `100 - 100/(1 + avg_gain/avg_loss)` with pandas float semantics at the
corner: `avg_loss = 0 < avg_gain` gives `rs = inf` hence RSI `= 100`;
`avg_loss = avg_gain = 0` gives `rs = NaN` hence RSI `NaN` (`none`). -/
def rsiOf (ag al : ℚ) : Option ℚ :=
  if al = 0 then (if ag = 0 then none else some 100)
  else some (100 - 100 / (1 + ag / al))

/-- `compute_rsi(series, period)` of `test.py`, the full output series:
index 0 is `NaN` (from `diff()`); index `t ≥ 1` carries the formula value
at the Wilder-smoothed (`ewm(alpha=1/period, adjust=False)`) average
gain/loss pair. -/
def rsiList (period : Nat) (closes : List ℚ) : List (Option ℚ) :=
  match closes with
  | [] => []
  | _ :: _ =>
    none :: (((ewmSeq (1 / (period : ℚ)) (gainsOf closes)).zip
        (ewmSeq (1 / (period : ℚ)) (lossesOf closes))).map
      (fun p => rsiOf p.1 p.2))

/-- `compute_rsi(series, period).iloc[-1]`. -/
def rsiLast (period : Nat) (closes : List ℚ) : Option ℚ :=
  match (ewmSeq (1 / (period : ℚ)) (gainsOf closes)).getLast?,
      (ewmSeq (1 / (period : ℚ)) (lossesOf closes)).getLast? with
  | some ag, some al => rsiOf ag al
  | _, _ => none

/-- `compute_macd_diff(series)`: `EMA12 − EMA26` minus its own `EMA9`
(pandas `span=s` means `alpha = 2/(s+1)`). -/
def macdDiffList (closes : List ℚ) : List ℚ :=
  let fast := ewmSeq (2 / 13) closes
  let slow := ewmSeq (2 / 27) closes
  let macd := List.zipWith (fun a b => a - b) fast slow
  let sig := ewmSeq (2 / 10) macd
  List.zipWith (fun a b => a - b) macd sig

/-- `compute_macd_diff(series).iloc[-1]`. -/
def macdDiffLast (closes : List ℚ) : Option ℚ := (macdDiffList closes).getLast?

/-- Python `round(x, 1)`: round half-to-even to one decimal place,
modelled over exact rationals. -/
def roundHalfEven1 (x : ℚ) : ℚ :=
  let y := 10 * x
  let n : ℤ := ⌊y⌋
  let m : ℤ :=
    if y - n < 1/2 then n
    else if 1/2 < y - n then n + 1
    else if n % 2 = 0 then n else n + 1
  (m : ℚ) / 10

/-- The indicator-policy scorer of `test.py::analyze_symbol` on a
successfully fetched close series: direction from the sign of the last
MACD−signal value (`NaN > 0` is false in Python, so an undefined value
yields `숏`), strength `|RSI−50|/50·100` rounded to one decimal (`NaN`
stays `NaN`, modelled `none`). -/
def indicatorSignal (closes : List ℚ) : TestSignal :=
  ⟨if 0 < (macdDiffLast closes).getD 0 then Dir.long else Dir.short,
   (rsiLast 14 closes).map (fun r => roundHalfEven1 (|r - 50| / 50 * 100))⟩

/-- `test.py::get_klines`: no empty-payload and no minimum-bars guard — an
empty `data` array makes the `df.columns` assignment raise, a malformed
row makes the decode raise; both propagate out of `get_klines`. -/
def get_klines (fetch : FetchOutcome) : Except Unit (List ℚ) :=
  match fetch with
  | .transportError => .error ()
  | .payload d =>
    let rows := d.getD []
    if rows.isEmpty then .error ()
    else
      match parseRows rows with
      | none => .error ()
      | some bars => .ok (bars.map Bar.close)

/-- `test.py::analyze_symbol`: any exception inside the `try` — transport,
payload shape, or indicator failure — is converted to the default
`('롱', 0.0)`; there is no per-failure-mode distinction. -/
def analyze_symbol (fetch : FetchOutcome) : TestSignal :=
  match get_klines fetch with
  | .error _ => ⟨Dir.long, some 0⟩
  | .ok closes =>
    if closes.isEmpty then ⟨Dir.long, some 0⟩ else indicatorSignal closes

theorem parseNum_eq_some (j : JsonNum) (q : ℚ) (h : parseNum j = some q) :
    j = .num q := by
  cases j with
  | num p =>
    simp only [parseNum, Option.some.injEq] at h
    rw [h]
  | nonNumeric => simp [parseNum] at h

theorem parseRows_eq_none (rows : List Row)
    (h : ∃ r ∈ rows, parseRow r = none) : parseRows rows = none := by
  induction rows with
  | nil =>
    obtain ⟨r, hr, _⟩ := h
    simp at hr
  | cons x xs ih =>
    obtain ⟨r, hr, hp⟩ := h
    rcases List.mem_cons.mp hr with h1 | h1
    · subst h1
      simp [parseRows, hp]
    · cases hx : parseRow x
      · simp [parseRows, hx]
      · simp [parseRows, hx, ih ⟨r, h1, hp⟩]

theorem parseRow_some_shape (r : Row) (b : Bar) (h : parseRow r = some b) :
    6 ≤ r.length ∧ ∀ i, i < 6 → ∃ q, r[i]? = some (JsonNum.num q) := by
  unfold parseRow at h
  split at h
  · rename_i t o hh l c v h0 h1 h2 h3 h4 h5
    obtain ⟨jt, hjt, hjtp⟩ := Option.bind_eq_some.mp h0
    obtain ⟨jo, hjo, hjop⟩ := Option.bind_eq_some.mp h1
    obtain ⟨jh, hjh, hjhp⟩ := Option.bind_eq_some.mp h2
    obtain ⟨jl, hjl, hjlp⟩ := Option.bind_eq_some.mp h3
    obtain ⟨jc, hjc, hjcp⟩ := Option.bind_eq_some.mp h4
    obtain ⟨jv, hjv, hjvp⟩ := Option.bind_eq_some.mp h5
    rw [parseNum_eq_some _ _ hjtp] at hjt
    rw [parseNum_eq_some _ _ hjop] at hjo
    rw [parseNum_eq_some _ _ hjhp] at hjh
    rw [parseNum_eq_some _ _ hjlp] at hjl
    rw [parseNum_eq_some _ _ hjcp] at hjc
    rw [parseNum_eq_some _ _ hjvp] at hjv
    constructor
    · obtain ⟨h5', -⟩ := List.getElem?_eq_some.mp hjv
      omega
    · intro i hi
      interval_cases i
      · exact ⟨t, hjt⟩
      · exact ⟨o, hjo⟩
      · exact ⟨hh, hjh⟩
      · exact ⟨l, hjl⟩
      · exact ⟨c, hjc⟩
      · exact ⟨v, hjv⟩
  · exact absurd h (by simp)

/-- **C2 (amended).**  Fetch failure modes.  In `api_utils.py::fetch_kline`
the claim holds and nothing is raised at the fetch stage:
transport/timeout → RequestFailed, payload with no data rows (missing key
or empty list) → NoResponse, fewer than 25 decoded bars →
InsufficientData.  In `web.py::fetch_kline` only a missing `data` key
yields NoResponse — a present-but-empty `data` list falls through to the
25-bar check and is published as InsufficientData.  In `test.py`,
`analyze_symbol` converts every `get_klines` failure — transport error,
missing key and empty payload alike — to the default `('롱', 0.0)`; it has
no distinct NoResponse / InsufficientData outcomes at all. -/
theorem fetch_failure_outcomes (score : List Bar → Except Unit ℚ)
    (detail : Option DetailItem) :
    (fetch_kline_api score detail .transportError = .ok .requestFailed
      ∧ fetch_kline_api score detail (.payload none) = .ok .noResponse
      ∧ fetch_kline_api score detail (.payload (some [])) = .ok .noResponse
      ∧ ∀ (rows : List Row) (bars : List Bar), parseRows rows = some bars →
          rows ≠ [] → bars.length < 25 →
          fetch_kline_api score detail (.payload (some rows)) = .ok .insufficientData)
    ∧ (fetch_kline_web score .transportError = .ok .requestFailed
      ∧ fetch_kline_web score (.payload none) = .ok .noResponse
      ∧ fetch_kline_web score (.payload (some [])) = .ok .insufficientData)
    ∧ (analyze_symbol .transportError = ⟨Dir.long, some 0⟩
      ∧ analyze_symbol (.payload none) = ⟨Dir.long, some 0⟩
      ∧ analyze_symbol (.payload (some [])) = ⟨Dir.long, some 0⟩) := by
  refine ⟨⟨rfl, rfl, rfl, ?_⟩, ⟨rfl, rfl, rfl⟩, rfl, rfl, rfl⟩
  intro rows bars hp hne hlen
  have hne' : rows.isEmpty = false := by
    cases rows
    · exact absurd rfl hne
    · rfl
  simp only [fetch_kline_api, Option.getD_some, hne', Bool.false_eq_true, if_false, hp]
  rw [if_pos hlen]

/-- A well-formed single k-line row used as a concrete witness input. -/
def demoRow : Row := [.num 0, .num 1, .num 2, .num 3, .num 4, .num 5]

/-- The bar `demoRow` decodes to. -/
def demoBar : Bar := ⟨0, 1, 2, 3, 4, 5⟩

/-- Witness for the amended C2: one well-formed row decodes to one bar,
which is fewer than 25, and the api-variant fetch reports
InsufficientData. -/
theorem fetch_failure_outcomes_witness :
    (parseRows [demoRow] = some [demoBar] ∧ [demoRow] ≠ ([] : List Row)
      ∧ ([demoBar] : List Bar).length < 25)
    ∧ fetch_kline_api (fun _ => .ok (1/2)) none (.payload (some [demoRow]))
        = .ok .insufficientData :=
  ⟨⟨rfl, by decide, by decide⟩,
    (fetch_failure_outcomes (fun _ => .ok (1/2)) none).1.2.2.2 [demoRow] [demoBar]
      rfl (by decide) (by decide)⟩

/-- **C2 counterexample.**  A payload whose `data` key is present but holds
an empty list: `web.py::fetch_kline` publishes `'⚪ 데이터 부족'`
(InsufficientData), not `'⚪ 응답 없음'` (NoResponse), because its
no-response check only tests `'data' not in data`.  So "a payload with no
data rows yields NoResponse" is false for this fetcher. -/
theorem empty_payload_not_noResponse_in_web :
    fetch_kline_web (fun _ => .ok (1/2)) (.payload (some [])) = .ok .insufficientData
    ∧ ApiSignal.insufficientData ≠ ApiSignal.noResponse :=
  ⟨rfl, by decide⟩

/-- 25 well-formed identical bars: enough rows to pass every fetch-stage
check and reach the scoring section. -/
def goodRows25 : List Row :=
  List.replicate 25 [.num 0, .num 1, .num 1, .num 1, .num 1, .num 1]

/-- **C3.**  A failure of the indicator/model-fitting step (e.g.
`LogisticRegression().fit` raising on single-class labels, which a
monotonically rising close series produces): in `api_utils.py::fetch_kline`
the scoring section (lines 103–137) sits outside every `try`, so the
failure propagates out of `fetch_kline` — and through `asyncio.gather`,
terminating the `rotating_analysis` scheduler loop — instead of being
converted to a Signal.  In `web.py` the very same failure is caught by the
second `try` and published as `'⚪ 분석 실패'` (AnalysisFailed), which is
the behavior the claim describes; `test.py` likewise converts any failure
to its neutral default `('롱', 0.0)`. -/
theorem scorer_failure_uncaught_in_api_variant :
    fetch_kline_api (fun _ => .error ()) none (.payload (some goodRows25)) = .error ()
    ∧ fetch_kline_web (fun _ => .error ()) (.payload (some goodRows25))
        = .ok .analysisFailed
    ∧ analyze_symbol .transportError = ⟨Dir.long, some 0⟩ :=
  ⟨rfl, rfl, rfl⟩

/-- **C6.**  The risk-adjusted threshold classifier of
`api_utils.py::fetch_kline`: with the rates taken from the first entry of
a nonempty `riskLimitCustom` list, `adjusted = P(up)·(1−(mmr+imr))`; the
signal is Long with confidence `adjusted` when `adjusted > 0.85`, Short
with confidence `1−adjusted` when `adjusted < 0.15`, and NoRecommendation
with confidence `adjusted` otherwise, all expressed as percentages
(`·100`). -/
theorem threshold_classifier_risk_policy (d : DetailItem) (t : RiskTier)
    (rest : List RiskTier) (prob : ℚ) (ht : d.riskLimitCustom = t :: rest) :
    ((85/100 : ℚ) < prob * (1 - (t.mmr.getD 0 + t.imr.getD 0)) →
      classifyAdjusted (some d) prob
        = ApiSignal.long (prob * (1 - (t.mmr.getD 0 + t.imr.getD 0)) * 100))
    ∧ (prob * (1 - (t.mmr.getD 0 + t.imr.getD 0)) < 15/100 →
      classifyAdjusted (some d) prob
        = ApiSignal.short ((1 - prob * (1 - (t.mmr.getD 0 + t.imr.getD 0))) * 100))
    ∧ (¬ (85/100 : ℚ) < prob * (1 - (t.mmr.getD 0 + t.imr.getD 0)) →
      ¬ prob * (1 - (t.mmr.getD 0 + t.imr.getD 0)) < 15/100 →
      classifyAdjusted (some d) prob
        = ApiSignal.noRecommendation (prob * (1 - (t.mmr.getD 0 + t.imr.getD 0)) * 100)) := by
  have hr : riskRates (some d) = (t.mmr.getD 0, t.imr.getD 0) := by
    simp [riskRates, ht]
  refine ⟨?_, ?_, ?_⟩
  · intro h1
    simp only [classifyAdjusted, hr]
    rw [if_pos h1]
  · intro h1
    simp only [classifyAdjusted, hr]
    rw [if_neg (by linarith), if_pos h1]
  · intro h1 h2
    simp only [classifyAdjusted, hr]
    rw [if_neg h1, if_neg h2]

/-- Concrete risk tier for the C6 witness: `mmr = imr = 1%`. -/
def demoTier : RiskTier := ⟨some (1/100), some (1/100)⟩

/-- Concrete contract-detail item for the C6 witness. -/
def demoDetail : DetailItem := ⟨"BTC_USDT", some "USDT", [demoTier], none, none⟩

/-- Witness for C6: `P(up) = 0.9` with 1%+1% margin rates gives
`adjusted = 0.882 > 0.85`, hence Long at 88.2%. -/
theorem threshold_classifier_risk_policy_witness :
    ((85/100 : ℚ) < (9/10) * (1 - (demoTier.mmr.getD 0 + demoTier.imr.getD 0)))
    ∧ classifyAdjusted (some demoDetail) (9/10)
        = ApiSignal.long ((9/10) * (1 - (demoTier.mmr.getD 0 + demoTier.imr.getD 0)) * 100) :=
  ⟨by norm_num [demoTier],
    (threshold_classifier_risk_policy demoDetail demoTier [] (9/10) rfl).1
      (by norm_num [demoTier])⟩

/-- **C10.**  A payload containing a malformed row — one shorter than 6
fields, or with a non-numeric field among the first six (the
characterization conjunct shows decoding succeeds only on rows with ≥ 6
leading numeric fields) — makes the row decode raise inside the same `try`
whose handler catches transport and timeout errors, in both
`api_utils.py::fetch_kline` and `web.py::fetch_kline`; the symbol is
published as `'⚪ 요청 실패'` (RequestFailed), exactly the outcome of a
transport error, so a provider schema violation is indistinguishable from
a network failure at the public interface. -/
theorem malformed_row_indistinguishable (score : List Bar → Except Unit ℚ)
    (detail : Option DetailItem) (rows : List Row)
    (h : ∃ r ∈ rows, parseRow r = none) :
    fetch_kline_api score detail (.payload (some rows)) = .ok .requestFailed
    ∧ fetch_kline_web score (.payload (some rows)) = .ok .requestFailed
    ∧ fetch_kline_api score detail .transportError = .ok .requestFailed
    ∧ fetch_kline_web score .transportError = .ok .requestFailed
    ∧ (∀ (r : Row) (b : Bar), parseRow r = some b →
        6 ≤ r.length ∧ ∀ i, i < 6 → ∃ q, r[i]? = some (JsonNum.num q)) := by
  have hn : parseRows rows = none := parseRows_eq_none rows h
  have hne : rows.isEmpty = false := by
    obtain ⟨r, hr, _⟩ := h
    cases rows
    · simp at hr
    · rfl
  refine ⟨?_, ?_, rfl, rfl, parseRow_some_shape⟩
  · simp only [fetch_kline_api, Option.getD_some, hne, Bool.false_eq_true, if_false, hn]
  · simp only [fetch_kline_web, hn]

/-- Witness for C10: a one-field row is malformed and the api-variant fetch
reports RequestFailed on it. -/
theorem malformed_row_indistinguishable_witness :
    (∃ r ∈ [([JsonNum.num 0] : Row)], parseRow r = none)
    ∧ fetch_kline_api (fun _ => .ok (1/2)) none (.payload (some [[JsonNum.num 0]]))
        = .ok .requestFailed :=
  ⟨⟨[JsonNum.num 0], by decide, rfl⟩,
    (malformed_row_indistinguishable (fun _ => .ok (1/2)) none [[JsonNum.num 0]]
      ⟨[JsonNum.num 0], by decide, rfl⟩).1⟩

theorem ewmFrom_length (a : ℚ) : ∀ (l : List ℚ) (y : ℚ), (ewmFrom a y l).length = l.length := by
  intro l
  induction l with
  | nil => intro y; rfl
  | cons x xs ih => intro y; simp [ewmFrom, ih]

theorem ewmSeq_length (a : ℚ) (l : List ℚ) : (ewmSeq a l).length = l.length := by
  cases l with
  | nil => rfl
  | cons x xs => simp [ewmSeq, ewmFrom_length]

theorem diffs_length : ∀ (l : List ℚ), (diffs l).length = l.length - 1
  | [] => rfl
  | [_] => rfl
  | x :: y :: rest => by
    simp only [diffs, List.length_cons, diffs_length (y :: rest)]
    omega

theorem ewmFrom_nonneg (a : ℚ) (ha0 : 0 ≤ a) (ha1 : a ≤ 1) :
    ∀ (l : List ℚ) (y : ℚ), 0 ≤ y → (∀ x ∈ l, 0 ≤ x) →
      ∀ z ∈ ewmFrom a y l, 0 ≤ z := by
  intro l
  induction l with
  | nil => intro y _ _ z hz; simp [ewmFrom] at hz
  | cons x xs ih =>
    intro y hy hl z hz
    have hx : 0 ≤ x := hl x (List.mem_cons_self x xs)
    have hy' : 0 ≤ (1 - a) * y + a * x := by
      have h1 : 0 ≤ (1 - a) * y := mul_nonneg (by linarith) hy
      have h2 : 0 ≤ a * x := mul_nonneg ha0 hx
      linarith
    simp only [ewmFrom, List.mem_cons] at hz
    rcases hz with hz | hz
    · rw [hz]; exact hy'
    · exact ih _ hy' (fun u hu => hl u (List.mem_cons_of_mem x hu)) z hz

theorem ewmSeq_nonneg (a : ℚ) (ha0 : 0 ≤ a) (ha1 : a ≤ 1) (l : List ℚ)
    (hl : ∀ x ∈ l, 0 ≤ x) : ∀ z ∈ ewmSeq a l, 0 ≤ z := by
  cases l with
  | nil => intro z hz; simp [ewmSeq] at hz
  | cons x xs =>
    intro z hz
    have hx : 0 ≤ x := hl x (List.mem_cons_self x xs)
    simp only [ewmSeq, List.mem_cons] at hz
    rcases hz with hz | hz
    · rw [hz]; exact hx
    · exact ewmFrom_nonneg a ha0 ha1 xs x hx
        (fun u hu => hl u (List.mem_cons_of_mem x hu)) z hz

theorem ewmFrom_pos (a : ℚ) (ha0 : 0 ≤ a) (ha1 : a ≤ 1) :
    ∀ (l : List ℚ) (y : ℚ), 0 < y → (∀ x ∈ l, 0 < x) →
      ∀ z ∈ ewmFrom a y l, 0 < z := by
  intro l
  induction l with
  | nil => intro y _ _ z hz; simp [ewmFrom] at hz
  | cons x xs ih =>
    intro y hy hl z hz
    have hx : 0 < x := hl x (List.mem_cons_self x xs)
    have hm : 0 < min y x := lt_min hy hx
    have hy' : 0 < (1 - a) * y + a * x := by
      have h1 : (1 - a) * min y x ≤ (1 - a) * y :=
        mul_le_mul_of_nonneg_left (min_le_left y x) (by linarith)
      have h2 : a * min y x ≤ a * x :=
        mul_le_mul_of_nonneg_left (min_le_right y x) ha0
      nlinarith
    simp only [ewmFrom, List.mem_cons] at hz
    rcases hz with hz | hz
    · rw [hz]; exact hy'
    · exact ih _ hy' (fun u hu => hl u (List.mem_cons_of_mem x hu)) z hz

theorem ewmSeq_pos (a : ℚ) (ha0 : 0 ≤ a) (ha1 : a ≤ 1) (l : List ℚ)
    (hl : ∀ x ∈ l, 0 < x) : ∀ z ∈ ewmSeq a l, 0 < z := by
  cases l with
  | nil => intro z hz; simp [ewmSeq] at hz
  | cons x xs =>
    intro z hz
    have hx : 0 < x := hl x (List.mem_cons_self x xs)
    simp only [ewmSeq, List.mem_cons] at hz
    rcases hz with hz | hz
    · rw [hz]; exact hx
    · exact ewmFrom_pos a ha0 ha1 xs x hx
        (fun u hu => hl u (List.mem_cons_of_mem x hu)) z hz

theorem ewmFrom_zero (a : ℚ) : ∀ (l : List ℚ), (∀ x ∈ l, x = 0) →
    ∀ z ∈ ewmFrom a 0 l, z = 0 := by
  intro l
  induction l with
  | nil => intro _ z hz; simp [ewmFrom] at hz
  | cons x xs ih =>
    intro hl z hz
    have hx : x = 0 := hl x (List.mem_cons_self x xs)
    subst hx
    simp only [ewmFrom, List.mem_cons] at hz
    have h0 : (1 - a) * 0 + a * 0 = 0 := by ring
    rcases hz with hz | hz
    · rw [hz, h0]
    · rw [h0] at hz
      exact ih (fun u hu => hl u (List.mem_cons_of_mem _ hu)) z hz

theorem ewmSeq_zero (a : ℚ) (l : List ℚ) (hl : ∀ x ∈ l, x = 0) :
    ∀ z ∈ ewmSeq a l, z = 0 := by
  cases l with
  | nil => intro z hz; simp [ewmSeq] at hz
  | cons x xs =>
    have hx : x = 0 := hl x (List.mem_cons_self x xs)
    subst hx
    intro z hz
    simp only [ewmSeq, List.mem_cons] at hz
    rcases hz with hz | hz
    · exact hz
    · exact ewmFrom_zero a xs
        (fun u hu => hl u (List.mem_cons_of_mem _ hu)) z hz

theorem alphaOf_unit (period : Nat) :
    0 ≤ 1 / ((period : ℚ)) ∧ 1 / ((period : ℚ)) ≤ 1 := by
  constructor
  · positivity
  · cases period with
    | zero => simp
    | succ n =>
      rw [div_le_one (by positivity)]
      exact_mod_cast Nat.succ_le_succ (Nat.zero_le n)

theorem getLast?_mem_list {α : Type} (l : List α) (a : α) (h : l.getLast? = some a) :
    a ∈ l := by
  obtain ⟨hne, heq⟩ := List.mem_getLast?_eq_getLast (x := a) (Option.mem_def.mpr h)
  rw [heq]
  exact List.getLast_mem hne

theorem rsiOf_bounds (ag al : ℚ) (hag : 0 ≤ ag) (hal : 0 ≤ al) (r : ℚ)
    (h : rsiOf ag al = some r) : 0 ≤ r ∧ r ≤ 100 := by
  unfold rsiOf at h
  split_ifs at h with h1 h2
  · simp only [Option.some.injEq] at h
    rw [← h]
    norm_num
  · have hal' : 0 < al := lt_of_le_of_ne hal (Ne.symm h1)
    have hrs : 0 ≤ ag / al := div_nonneg hag (le_of_lt hal')
    have hq : 0 < 100 / (1 + ag / al) := by positivity
    have hq' : 100 / (1 + ag / al) ≤ 100 := by
      apply div_le_self (by norm_num)
      linarith
    simp only [Option.some.injEq] at h
    constructor <;> linarith

theorem rsiLast_bounds (period : Nat) (closes : List ℚ) (r : ℚ)
    (h : rsiLast period closes = some r) : 0 ≤ r ∧ r ≤ 100 := by
  obtain ⟨ha0, ha1⟩ := alphaOf_unit period
  unfold rsiLast at h
  split at h
  · rename_i ag al hag hal
    have hgm : ag ∈ ewmSeq (1 / (period : ℚ)) (gainsOf closes) :=
      getLast?_mem_list _ _ hag
    have hlm : al ∈ ewmSeq (1 / (period : ℚ)) (lossesOf closes) :=
      getLast?_mem_list _ _ hal
    have hg0 : 0 ≤ ag :=
      ewmSeq_nonneg _ ha0 ha1 _ (by
        intro x hx
        simp only [gainsOf, List.mem_map] at hx
        obtain ⟨d, -, rfl⟩ := hx
        exact le_max_right d 0) ag hgm
    have hl0 : 0 ≤ al :=
      ewmSeq_nonneg _ ha0 ha1 _ (by
        intro x hx
        simp only [lossesOf, List.mem_map] at hx
        obtain ⟨d, -, rfl⟩ := hx
        exact le_max_right (-d) 0) al hlm
    exact rsiOf_bounds ag al hg0 hl0 r h
  · exact absurd h (by simp)

theorem roundHalfEven1_bounds (x : ℚ) (h0 : 0 ≤ x) (h100 : x ≤ 100) :
    0 ≤ roundHalfEven1 x ∧ roundHalfEven1 x ≤ 100 := by
  have hn0 : (0 : ℤ) ≤ ⌊10 * x⌋ := Int.floor_nonneg.mpr (by linarith)
  have hn1 : ⌊10 * x⌋ ≤ 1000 := by
    have h1 : ⌊10 * x⌋ ≤ ⌊(1000 : ℚ)⌋ := Int.floor_le_floor (by linarith)
    simpa using h1
  have hfl : (⌊10 * x⌋ : ℚ) ≤ 10 * x := Int.floor_le _
  have hup : ∀ hcond : 1/2 ≤ 10 * x - (⌊10 * x⌋ : ℚ), ⌊10 * x⌋ ≤ 999 := by
    intro hcond
    have h1 : (⌊10 * x⌋ : ℚ) ≤ 1999/2 := by linarith
    have h2 : ⌊10 * x⌋ ≤ ⌊(1999 : ℚ)/2⌋ := Int.le_floor.mpr h1
    have h3 : ⌊(1999 : ℚ)/2⌋ = 999 := by
      rw [Int.floor_eq_iff]
      norm_num
    omega
  simp only [roundHalfEven1]
  split_ifs with h1 h2 h3
  · constructor
    · positivity
    · rw [div_le_iff₀ (by norm_num)]
      have : (⌊10 * x⌋ : ℚ) ≤ 1000 := by exact_mod_cast hn1
      linarith
  · have h999 : ⌊10 * x⌋ ≤ 999 := hup (by linarith)
    constructor
    · have : (0 : ℚ) ≤ (⌊10 * x⌋ : ℚ) + 1 := by
        have : (0 : ℚ) ≤ (⌊10 * x⌋ : ℚ) := by exact_mod_cast hn0
        linarith
      rw [Int.cast_add, Int.cast_one]
      positivity
    · rw [Int.cast_add, Int.cast_one, div_le_iff₀ (by norm_num)]
      have : (⌊10 * x⌋ : ℚ) ≤ 999 := by exact_mod_cast h999
      linarith
  · constructor
    · positivity
    · rw [div_le_iff₀ (by norm_num)]
      have : (⌊10 * x⌋ : ℚ) ≤ 1000 := by exact_mod_cast hn1
      linarith
  · have h999 : ⌊10 * x⌋ ≤ 999 := hup (by linarith)
    constructor
    · have h0' : (0 : ℚ) ≤ (⌊10 * x⌋ : ℚ) := by exact_mod_cast hn0
      rw [Int.cast_add, Int.cast_one]
      positivity
    · rw [Int.cast_add, Int.cast_one, div_le_iff₀ (by norm_num)]
      have : (⌊10 * x⌋ : ℚ) ≤ 999 := by exact_mod_cast h999
      linarith

/-- **C7 (amended).**  The indicator-threshold policy of
`test.py::analyze_symbol` on a successfully fetched series: the published
direction is Long exactly when the last MACD-minus-signal value is
positive (and Short otherwise), and the published confidence is
`|RSI(last) − 50| / 50 × 100` ROUNDED HALF-TO-EVEN TO ONE DECIMAL PLACE
(`round(strength, 1)`), not the raw formula value; whenever `RSI(last)` is
defined this rounded value does lie in `[0, 100]` (there is no explicit
clamp in the code — the bound is a consequence of `RSI ∈ [0,100]`; for a
series where RSI is undefined, e.g. constant prices, the published
confidence is `NaN`). -/
theorem indicator_policy_signal (closes : List ℚ) (hne : closes ≠ []) :
    ((indicatorSignal closes).dir = Dir.long ↔ 0 < (macdDiffLast closes).getD 0)
    ∧ (∀ r, rsiLast 14 closes = some r →
        (indicatorSignal closes).rate = some (roundHalfEven1 (|r - 50| / 50 * 100))
        ∧ 0 ≤ roundHalfEven1 (|r - 50| / 50 * 100)
        ∧ roundHalfEven1 (|r - 50| / 50 * 100) ≤ 100)
    ∧ (∀ fetch, get_klines fetch = .ok closes → analyze_symbol fetch = indicatorSignal closes) := by
  refine ⟨?_, ?_, ?_⟩
  · simp only [indicatorSignal]
    split_ifs with h
    · simp [h]
    · simp [h]
  · intro r hr
    obtain ⟨hr0, hr100⟩ := rsiLast_bounds 14 closes r hr
    have habs : |r - 50| ≤ 50 := abs_le.mpr ⟨by linarith, by linarith⟩
    have hs0 : 0 ≤ |r - 50| / 50 * 100 := by positivity
    have hs100 : |r - 50| / 50 * 100 ≤ 100 := by
      rw [div_mul_eq_mul_div, div_le_iff₀ (by norm_num)]
      linarith
    obtain ⟨hb0, hb100⟩ := roundHalfEven1_bounds _ hs0 hs100
    refine ⟨?_, hb0, hb100⟩
    simp only [indicatorSignal, hr, Option.map_some']
  · intro fetch hf
    have hE : closes.isEmpty = false := by
      cases closes
      · exact absurd rfl hne
      · rfl
    simp only [analyze_symbol, hf, hE, Bool.false_eq_true, if_false]

/-- Witness for the amended C7 at the concrete series `[1, 2, 1]`
(RSI(last) = 650/7). -/
theorem indicator_policy_signal_witness :
    (([(1:ℚ), 2, 1] : List ℚ) ≠ [] ∧ rsiLast 14 [(1:ℚ), 2, 1] = some (650/7))
    ∧ ((indicatorSignal [(1:ℚ), 2, 1]).rate
        = some (roundHalfEven1 (|(650:ℚ)/7 - 50| / 50 * 100))
      ∧ 0 ≤ roundHalfEven1 (|(650:ℚ)/7 - 50| / 50 * 100)
      ∧ roundHalfEven1 (|(650:ℚ)/7 - 50| / 50 * 100) ≤ 100) :=
  ⟨⟨by simp, by norm_num [rsiLast, gainsOf, lossesOf, diffs, ewmSeq, ewmFrom, rsiOf,
      max_def]⟩,
    (indicator_policy_signal [(1:ℚ), 2, 1] (by simp)).2.1 (650/7)
      (by norm_num [rsiLast, gainsOf, lossesOf, diffs, ewmSeq, ewmFrom, rsiOf, max_def])⟩

/-- **C7 counterexample.**  On the series `[1, 2, 1]` the published rate is
`round(600/7, 1) = 85.7`, which differs from the raw formula value
`|RSI(last) − 50| / 50 × 100 = 600/7 = 85.714…`: the code publishes the
value rounded to one decimal, so "confidence equals |RSI−50|/50×100" is
false as stated. -/
theorem indicator_policy_rate_rounded :
    rsiLast 14 [(1:ℚ), 2, 1] = some (650/7)
    ∧ (indicatorSignal [(1:ℚ), 2, 1]).rate = some (857/10)
    ∧ (857/10 : ℚ) ≠ |(650:ℚ)/7 - 50| / 50 * 100 := by
  have h1 : rsiLast 14 [(1:ℚ), 2, 1] = some (650/7) := by
    norm_num [rsiLast, gainsOf, lossesOf, diffs, ewmSeq, ewmFrom, rsiOf, max_def]
  have hstrength : |(650:ℚ)/7 - 50| / 50 * 100 = 600/7 := by
    rw [abs_of_nonneg (by norm_num)]
    norm_num
  have hfl : ⌊(10:ℚ) * (600/7)⌋ = 857 := by
    rw [Int.floor_eq_iff]
    norm_num
  have h2 : roundHalfEven1 (|(650:ℚ)/7 - 50| / 50 * 100) = 857/10 := by
    rw [hstrength]
    simp only [roundHalfEven1]
    rw [hfl]
    norm_num
  refine ⟨h1, ?_, ?_⟩
  · simp only [indicatorSignal, h1, Option.map_some']
    rw [h2]
  · rw [hstrength]
    norm_num

theorem diffs_pos_of_chain : ∀ (l : List ℚ), List.Chain' (· < ·) l →
    ∀ d ∈ diffs l, 0 < d
  | [] => by intro _ d hd; simp [diffs] at hd
  | [_] => by intro _ d hd; simp [diffs] at hd
  | x :: y :: rest => by
    intro hch d hd
    rw [List.chain'_cons] at hch
    simp only [diffs, List.mem_cons] at hd
    rcases hd with hd | hd
    · rw [hd]
      linarith [hch.1]
    · exact diffs_pos_of_chain (y :: rest) hch.2 d hd

/-- **C8 (amended).**  `compute_rsi(series, period)` smooths the per-step
gains `max(delta,0)` and losses `max(−delta,0)` with
`ewm(alpha=1/period, adjust=False)` — the Wilder recurrence
`avg_t = (1−1/period)·avg_{t−1} + (1/period)·x_t` seeded at the first
gain/loss — and yields `100 − 100/(1 + avg_gain/avg_loss)`; but only the
FIRST value (index 0, from the leading `NaN` of `diff()`) is undefined,
not the first `period` values: every index `≥ 1` already carries a defined
value whenever the smoothed averages are not both zero; and on a
monotonically increasing price series every output from index 1 on equals
100 exactly (so the output trivially converges to 100). -/
theorem rsi_wilder_spec (period : Nat) (closes : List ℚ) :
    (rsiList period closes).length = closes.length
    ∧ (closes ≠ [] → (rsiList period closes)[0]? = some none)
    ∧ (∀ t r, (rsiList period closes)[t]? = some (some r) → 1 ≤ t)
    ∧ (∀ ag al, (ewmSeq (1/(period : ℚ)) (gainsOf closes)).getLast? = some ag →
        (ewmSeq (1/(period : ℚ)) (lossesOf closes)).getLast? = some al → al ≠ 0 →
        rsiLast period closes = some (100 - 100 / (1 + ag / al)))
    ∧ (List.Chain' (· < ·) closes →
        ∀ o ∈ (rsiList period closes).drop 1, o = some 100) := by
  refine ⟨?_, ?_, ?_, ?_, ?_⟩
  · cases closes with
    | nil => rfl
    | cons x xs =>
      simp only [rsiList, List.length_cons, List.length_map, List.length_zip,
        ewmSeq_length, gainsOf, lossesOf, diffs_length]
      omega
  · intro hne
    cases closes with
    | nil => exact absurd rfl hne
    | cons x xs => simp [rsiList]
  · intro t r h
    cases closes with
    | nil => simp [rsiList] at h
    | cons x xs =>
      cases t with
      | zero => simp [rsiList] at h
      | succ t => omega
  · intro ag al hag hal hne
    simp only [rsiLast, hag, hal, rsiOf, hne, if_false]
  · intro hch o ho
    cases closes with
    | nil => simp [rsiList] at ho
    | cons x xs =>
      obtain ⟨ha0, ha1⟩ := alphaOf_unit period
      simp only [rsiList, List.drop_succ_cons, List.drop_zero] at ho
      obtain ⟨p, hp, rfl⟩ := List.mem_map.mp ho
      obtain ⟨hp1, hp2⟩ := List.of_mem_zip hp
      have hdpos : ∀ d ∈ diffs (x :: xs), 0 < d := diffs_pos_of_chain _ hch
      have hgpos : 0 < p.1 := by
        refine ewmSeq_pos _ ha0 ha1 _ ?_ p.1 hp1
        intro g hg
        simp only [gainsOf, List.mem_map] at hg
        obtain ⟨d, hd, rfl⟩ := hg
        have := hdpos d hd
        rw [max_eq_left (le_of_lt this)]
        exact this
      have hlzero : p.2 = 0 := by
        refine ewmSeq_zero _ _ ?_ p.2 hp2
        intro l hl
        simp only [lossesOf, List.mem_map] at hl
        obtain ⟨d, hd, rfl⟩ := hl
        have := hdpos d hd
        rw [max_eq_right]
        linarith
      rw [hlzero, rsiOf, if_pos rfl, if_neg (ne_of_gt hgpos)]

/-- Witness for the amended C8: on the strictly increasing series
`[1, 2, 3]` every RSI value after index 0 is exactly 100. -/
theorem rsi_wilder_spec_witness :
    List.Chain' (· < ·) [(1:ℚ), 2, 3]
    ∧ ∀ o ∈ (rsiList 14 [(1:ℚ), 2, 3]).drop 1, o = some 100 := by
  have hch : List.Chain' (· < ·) [(1:ℚ), 2, 3] := by
    norm_num [List.chain'_cons]
  exact ⟨hch, (rsi_wilder_spec 14 [(1:ℚ), 2, 3]).2.2.2.2 hch⟩

/-- **C8 counterexample.**  `compute_rsi([1, 2], 14)` already carries the
defined value 100 at index 1, although `1 < period = 14`: the claim that
"the first `period` values are undefined" is false for this
implementation (`ewm(adjust=False)` starts producing values at the first
valid observation; only index 0, the `NaN` of `diff()`, is undefined). -/
theorem rsi_defined_before_period :
    (rsiList 14 [(1:ℚ), 2])[1]? = some (some 100) ∧ (1:ℕ) < 14 := by
  constructor
  · norm_num [rsiList, gainsOf, lossesOf, diffs, ewmSeq, ewmFrom, rsiOf, max_def]
  · norm_num

/- ### Universe Loader (`api_utils.py` module bootstrap,
`web.py.__main__`, `test.py::fetch_symbols`) -/

/-- The `try`-guarded bootstrap of `api_utils.py`: build `detail_map` from
the USDT-quoted items (dict semantics: a duplicate symbol keeps its first
position with the latest item), `SYMBOLS = list(detail_map.keys())`; on
any failure print the error and fall back to `SYMBOLS = []` — the service
still starts. -/
def load_universe_api (resp : Except Unit (List DetailItem)) :
    List String × List (String × DetailItem) :=
  match resp with
  | .error _ => ([], [])
  | .ok items =>
    let dm := items.foldl
      (fun m it => if it.quoteCoin = some "USDT" then setA m it.symbol it else m) []
    (dm.map Prod.fst, dm)

/-- The universe load of `web.py.__main__`:
`requests.get(API_DETAIL).json()` with no `try` around it — a
network/parse failure propagates and the process never starts. -/
def load_universe_web (resp : Except Unit (List DetailItem)) :
    Except Unit (List String) :=
  match resp with
  | .error e => .error e
  | .ok items =>
    .ok ((items.filter (fun it => it.quoteCoin = some "USDT")).map (fun it => it.symbol))

/-- `test.py::fetch_symbols`: filters by the `_USDT` symbol SUFFIX (not the
`quoteCoin` field); a transport failure or `raise_for_status` propagates
to `__main__`, which has no handler either. -/
def fetch_symbols (resp : Except Unit (List DetailItem)) :
    Except Unit (List String) :=
  match resp with
  | .error e => .error e
  | .ok items =>
    .ok ((items.filter (fun it => it.symbol.endsWith "_USDT")).map (fun it => it.symbol))

theorem keys_foldl_usdt (items : List DetailItem) :
    ∀ (acc : List (String × DetailItem)),
      (acc.map Prod.fst
        ++ (items.filter (fun it => it.quoteCoin = some "USDT")).map
            (fun it => it.symbol)).Nodup →
      ((items.foldl
          (fun m it => if it.quoteCoin = some "USDT" then setA m it.symbol it else m)
          acc).map Prod.fst)
        = acc.map Prod.fst
          ++ (items.filter (fun it => it.quoteCoin = some "USDT")).map
              (fun it => it.symbol) := by
  induction items with
  | nil => intro acc _; simp
  | cons it rest ih =>
    intro acc hnd
    by_cases hq : it.quoteCoin = some "USDT"
    · have hfil :
          (it :: rest).filter (fun i => i.quoteCoin = some "USDT")
            = it :: rest.filter (fun i => i.quoteCoin = some "USDT") := by
        simp [List.filter_cons, hq]
      rw [hfil] at hnd
      rw [List.foldl_cons, if_pos hq]
      have hnotm : it.symbol ∉ acc.map Prod.fst := by
        rw [List.map_cons, List.append_cons] at hnd
        intro hmem
        rcases List.nodup_append.mp hnd with ⟨hA, -, -⟩
        rcases List.nodup_append.mp hA with ⟨-, -, hdisj⟩
        exact hdisj hmem (List.mem_singleton_self _)
      have hkeys : (setA acc it.symbol it).map Prod.fst
          = acc.map Prod.fst ++ [it.symbol] := by
        rw [keys_setA]
        have : (getA acc it.symbol).isSome = false := by
          by_contra hx
          exact hnotm ((getA_isSome_iff_mem_keys acc it.symbol).mp
            (by revert hx; cases (getA acc it.symbol).isSome <;> simp))
        simp [this]
      have hnd' : ((setA acc it.symbol it).map Prod.fst
          ++ (rest.filter (fun i => i.quoteCoin = some "USDT")).map
              (fun i => i.symbol)).Nodup := by
        rw [hkeys, ← List.append_cons]
        exact hnd
      rw [ih _ hnd', hkeys, hfil, List.map_cons, ← List.append_cons]
    · have hfil :
          (it :: rest).filter (fun i => i.quoteCoin = some "USDT")
            = rest.filter (fun i => i.quoteCoin = some "USDT") := by
        simp [List.filter_cons, hq]
      rw [hfil] at hnd
      rw [List.foldl_cons, if_neg hq, ih _ hnd, hfil]

/-- **C5 (amended).**  Universe loading.  The `api_utils.py` loader behaves
as the claim states: one call, keeps exactly the `quoteCoin == 'USDT'`
contracts preserving provider response order, and on network/parse failure
falls back non-fatally to an empty universe.  The `web.py` and `test.py`
loaders instead PROPAGATE a bootstrap failure (no handler anywhere), so
those services do not start with an empty universe; `test.py` also filters
by the `_USDT` symbol suffix rather than by the settlement-currency field. -/
theorem universe_loader_policy (items : List DetailItem)
    (hnd : ((items.filter (fun it => it.quoteCoin = some "USDT")).map
        (fun it => it.symbol)).Nodup) :
    (load_universe_api (.error ())).1 = []
    ∧ (load_universe_api (.ok items)).1
        = (items.filter (fun it => it.quoteCoin = some "USDT")).map (fun it => it.symbol)
    ∧ load_universe_web (.error ()) = .error ()
    ∧ fetch_symbols (.error ()) = .error ()
    ∧ load_universe_web (.ok items)
        = .ok ((items.filter (fun it => it.quoteCoin = some "USDT")).map
            (fun it => it.symbol))
    ∧ fetch_symbols (.ok items)
        = .ok ((items.filter (fun it => it.symbol.endsWith "_USDT")).map
            (fun it => it.symbol)) := by
  refine ⟨rfl, ?_, rfl, rfl, rfl, rfl⟩
  have h := keys_foldl_usdt items [] (by simpa using hnd)
  simpa [load_universe_api] using h

/-- Concrete contract-detail response for the C5 witness. -/
def demoItems : List DetailItem :=
  [⟨"BTC_USDT", some "USDT", [], none, none⟩,
   ⟨"ETH_BTC", some "BTC", [], none, none⟩,
   ⟨"ETH_USDT", some "USDT", [], none, none⟩]

/-- Witness for the amended C5: the api-variant loader keeps exactly the
USDT-quoted symbols in response order. -/
theorem universe_loader_policy_witness :
    ((demoItems.filter (fun it => it.quoteCoin = some "USDT")).map
        (fun it => it.symbol)).Nodup
    ∧ (load_universe_api (.ok demoItems)).1
        = (demoItems.filter (fun it => it.quoteCoin = some "USDT")).map
            (fun it => it.symbol) :=
  ⟨by decide, (universe_loader_policy demoItems (by decide)).2.1⟩

/-- **C5 counterexample.**  On a failing contract-detail fetch the `web.py`
loader does not return an empty universe with a non-fatal error: the
exception propagates (`requests.get(API_DETAIL).json()` sits outside any
`try`), so the claim's fallback behavior is false for this variant. -/
theorem web_bootstrap_failure_fatal :
    load_universe_web (.error ()) = .error ()
    ∧ (Except.error () : Except Unit (List String)) ≠ .ok [] :=
  ⟨rfl, fun h => Except.noConfusion h⟩

/- ### HTTP retry adapter (`test.py::create_session`) -/

/-- The `urllib3.util.retry.Retry` configuration mounted by
`create_session` on both `https://` and `http://`. -/
structure RetryPolicy where
  total : Nat
  read : Nat
  connect : Nat
  backoffFactor : ℚ
  statusForcelist : List Nat
  allowedMethods : List String
deriving DecidableEq, Repr

/-- `create_session(retries=3, backoff_factor=0.3,
status_forcelist=(500, 502, 504))` with `allowed_methods=["GET"]`. -/
def create_session (retries : Nat := 3) (backoffFactor : ℚ := 3/10)
    (statusForcelist : List Nat := [500, 502, 504]) : RetryPolicy :=
  ⟨retries, retries, retries, backoffFactor, statusForcelist, ["GET"]⟩

/-- urllib3 `Retry` semantics: every failed attempt consumes one retry; a
further attempt is permitted only while the failures consumed so far do
not exceed `total`.  A request that keeps failing is therefore attempted
at most `total + 1` times and then `MaxRetryError` is raised. -/
def retryPermitsAttempt (p : RetryPolicy) (failedSoFar : Nat) : Bool :=
  failedSoFar ≤ p.total

/-- Number of attempts made for a request that fails persistently. -/
def attemptsOnPersistentFailure (p : RetryPolicy) : Nat := p.total + 1

/-- **C9 (amended).**  The `Retry` adapter of `create_session` is an
explicit BOUNDED retry policy, not an unbounded loop: at most 3 retries
(4 attempts in total) per failing GET request, with backoff factor 0.3,
retryable status set {500, 502, 504}, and methods restricted to GET. -/
theorem retry_policy_bounded :
    (∀ n, retryPermitsAttempt create_session n = decide (n ≤ 3))
    ∧ attemptsOnPersistentFailure create_session = 4
    ∧ create_session.backoffFactor = 3/10
    ∧ create_session.statusForcelist = [500, 502, 504]
    ∧ create_session.allowedMethods = ["GET"] :=
  ⟨fun _ => rfl, rfl, rfl, rfl, rfl⟩

/-- **C9 counterexample.**  The session's retry policy has a maximum: the
4th attempt after 3 consumed retries is permitted, a 5th is not — so "for
every failing request there is no maximum number of retry attempts" is
false (`Retry(total=3, …)`). -/
theorem retry_gives_up_after_four_attempts :
    retryPermitsAttempt create_session 3 = true
    ∧ retryPermitsAttempt create_session 4 = false :=
  ⟨rfl, rfl⟩

end Margex
